import Mathlib

/-! # Verification of the headlamp-sealed-secrets core against its specification

Shallow embedding of the plugin's Result/branded-type primitives
(`src/types.ts`), the retry controller (`src/lib/retry.ts`) and the
validators (`src/lib/validators.ts`), together with theorems settling the
specification claims about them.

JavaScript runtime values that can be thrown or carried as `error` payloads
are modelled by `JsValue`; JavaScript numbers are modelled by exact
rationals (`ℚ`); JavaScript strings are modelled by `String`/`List Char`,
with `jsLength` computing the UTF-16 code-unit count that the `.length`
property reports.
-/

namespace SealedSecrets

/-- A JavaScript runtime value as far as the error paths observe it:
either a string, an `Error` object (carrying its `message`), or any other
value remembered only through its `String(...)` representation. -/
inductive JsValue where
  | str : String → JsValue
  | errorVal : String → JsValue
  | other : String → JsValue
deriving Repr, DecidableEq

/-- `String(v)` for a `JsValue`.  `String(new Error(m))` is `"Error: m"`
(just `"Error"` when the message is empty). -/
def jsToString : JsValue → String
  | .str s => s
  | .errorVal m => if m = "" then "Error" else "Error: " ++ m
  | .other r => r

/-- The tagged union `{ ok: true, value } | { ok: false, error }` from
`src/types.ts`. -/
inductive Result (α ε : Type) where
  | ok : α → Result α ε
  | err : ε → Result α ε
deriving Repr, DecidableEq

/-- `Ok(value)` from `src/types.ts`. -/
def Ok {α ε : Type} (value : α) : Result α ε := .ok value

/-- `Err(error)` from `src/types.ts`. -/
def Err {α ε : Type} (error : ε) : Result α ε := .err error

/-- `error instanceof Error ? error : new Error(String(error))` — the
normalisation applied by `tryCatch`/`tryCatchAsync` in `src/types.ts`. -/
def normalizeFault : JsValue → JsValue
  | .errorVal m => .errorVal m
  | v => .errorVal (jsToString v)

/-- `tryCatch(fn)` from `src/types.ts`.  The callable's one-shot behaviour
is embedded as an `Except`: `.ok v` when `fn()` returns `v`, `.error e`
when `fn()` throws the value `e`. -/
def tryCatch {α : Type} (fn : Except JsValue α) : Result α JsValue :=
  match fn with
  | .ok v => Ok v
  | .error e => Err (normalizeFault e)

/-- `tryCatchAsync(fn)` from `src/types.ts`; in the embedding the awaited
outcome of the async callable is again an `Except`, and the body is the
same try/catch as `tryCatch`. -/
def tryCatchAsync {α : Type} (fn : Except JsValue α) : Result α JsValue :=
  match fn with
  | .ok v => Ok v
  | .error e => Err (normalizeFault e)

/-- `PlaintextValue(value)` from `src/types.ts`: `return value as PlaintextValue`. -/
def PlaintextValue (value : String) : String := value

/-- `EncryptedValue(value)` from `src/types.ts`: `return value as EncryptedValue`. -/
def EncryptedValue (value : String) : String := value

/-- `Base64String(value)` from `src/types.ts`: `return value as Base64String`. -/
def Base64String (value : String) : String := value

/-- `PEMCertificate(value)` from `src/types.ts`: `return value as PEMCertificate`. -/
def PEMCertificate (value : String) : String := value

/-- `unwrap(value)` from `src/types.ts`: `return value`. -/
def unwrap (value : String) : String := value

/-- C8: `tryCatch` (and `tryCatchAsync`) returns `Ok` of the callable's
result when it returns normally; a thrown `Error` is carried as-is in an
`Err`; a thrown non-`Error` fault is coerced into an `Error` whose message
is the fault's string representation.  Every case yields a `Result`, so no
fault escapes as an uncaught exception. -/
theorem tryCatch_normalizes_faults (α : Type) :
    (∀ v : α, tryCatch (Except.ok v) = Ok (ε := JsValue) v) ∧
    (∀ m, tryCatch (α := α) (Except.error (JsValue.errorVal m)) =
      Err (JsValue.errorVal m)) ∧
    (∀ s, tryCatch (α := α) (Except.error (JsValue.str s)) =
      Err (JsValue.errorVal (jsToString (JsValue.str s)))) ∧
    (∀ r, tryCatch (α := α) (Except.error (JsValue.other r)) =
      Err (JsValue.errorVal (jsToString (JsValue.other r)))) ∧
    (∀ fn : Except JsValue α, tryCatchAsync fn = tryCatch fn) := by
  refine ⟨fun v => rfl, fun m => rfl, fun s => rfl, fun r => rfl, fun fn => rfl⟩

/-- C9: each branded-type constructor is the identity on the underlying
string and performs no validation, and `unwrap` is the identity, so
unwrapping a freshly branded value gives the original string back. -/
theorem branded_constructors_identity (s : String) :
    unwrap (PlaintextValue s) = s ∧ unwrap (EncryptedValue s) = s ∧
    unwrap (Base64String s) = s ∧ unwrap (PEMCertificate s) = s ∧
    PlaintextValue s = s ∧ EncryptedValue s = s ∧
    Base64String s = s ∧ PEMCertificate s = s ∧ unwrap s = s := by
  exact ⟨rfl, rfl, rfl, rfl, rfl, rfl, rfl, rfl, rfl⟩

/-! ## Retry controller (`src/lib/retry.ts`) -/

/-- The `RetryOptions` interface: every field optional. -/
structure RetryOptions where
  maxAttempts : Option ℕ := none
  initialDelayMs : Option ℚ := none
  maxDelayMs : Option ℚ := none
  backoffMultiplier : Option ℚ := none
  useJitter : Option Bool := none
  isRetryable : Option (JsValue → Bool) := none

/-- `Required<RetryOptions>`: all fields present. -/
structure RequiredRetryOptions where
  maxAttempts : ℕ
  initialDelayMs : ℚ
  maxDelayMs : ℚ
  backoffMultiplier : ℚ
  useJitter : Bool
  isRetryable : JsValue → Bool

/-- `DEFAULT_RETRY_OPTIONS` from `src/lib/retry.ts`. -/
def DEFAULT_RETRY_OPTIONS : RequiredRetryOptions :=
  { maxAttempts := 3
    initialDelayMs := 1000
    maxDelayMs := 10000
    backoffMultiplier := 2
    useJitter := true
    isRetryable := fun _ => true }

/-- The option merge `{ ...DEFAULT_RETRY_OPTIONS, ...options }`: a field
present in `options` overrides the default. -/
def mergeOptions (options : RetryOptions) : RequiredRetryOptions :=
  { maxAttempts := options.maxAttempts.getD DEFAULT_RETRY_OPTIONS.maxAttempts
    initialDelayMs := options.initialDelayMs.getD DEFAULT_RETRY_OPTIONS.initialDelayMs
    maxDelayMs := options.maxDelayMs.getD DEFAULT_RETRY_OPTIONS.maxDelayMs
    backoffMultiplier := options.backoffMultiplier.getD DEFAULT_RETRY_OPTIONS.backoffMultiplier
    useJitter := options.useJitter.getD DEFAULT_RETRY_OPTIONS.useJitter
    isRetryable := options.isRetryable.getD DEFAULT_RETRY_OPTIONS.isRetryable }

/-- `calculateDelay(attempt, options)` from `src/lib/retry.ts`.  The single
`Math.random()` call inside it is made explicit as the argument `r`
(`0 ≤ r < 1` at runtime); `0.25` is the exact rational `1/4` and
`Math.floor` is the rational floor into `ℤ`. -/
def calculateDelay (r : ℚ) (attempt : ℕ) (options : RequiredRetryOptions) : ℤ :=
  let delay := options.initialDelayMs * options.backoffMultiplier ^ attempt
  let delay := min delay options.maxDelayMs
  if options.useJitter then
    let jitterRange := delay * (1 / 4)
    let jitter := r * jitterRange * 2 - jitterRange
    ⌊max 0 (delay + jitter)⌋
  else
    ⌊delay⌋

/-- One invocation of the retried operation, as the `try` block of
`retryWithBackoff` observes it: either the operation's promise resolves to
a `Result`, or it rejects/throws a `JsValue`. -/
inductive AttemptOutcome (α : Type) where
  | ret : Result α JsValue → AttemptOutcome α
  | thrown : JsValue → AttemptOutcome α
deriving Repr

/-- The error string recorded for a returned failure:
`typeof result.error === 'string' ? result.error : String(result.error)`. -/
def errMsgOfReturned : JsValue → String
  | .str s => s
  | e => jsToString e

/-- The error string recorded for a thrown fault:
`error instanceof Error ? error.message : String(error)`. -/
def errMsgOfThrown : JsValue → String
  | .errorVal m => m
  | e => jsToString e

/-- The aggregate error returned after the attempts are exhausted:
`` `Operation failed after ${opts.maxAttempts} attempts:\n${errors.join('\n')}` ``. -/
def finalErrMsg (maxAttempts : ℕ) (errors : List String) : String :=
  "Operation failed after " ++ toString maxAttempts ++ " attempts:\n" ++
    String.intercalate "\n" errors

/-- `` `Attempt ${attempt + 1}: ${errorMessage}` `` for a returned failure. -/
def retLine (attempt : ℕ) (e : JsValue) : String :=
  "Attempt " ++ toString (attempt + 1) ++ ": " ++ errMsgOfReturned e

/-- `` `Attempt ${attempt + 1}: ${errorMessage}` `` for a thrown fault. -/
def thrownLine (attempt : ℕ) (e : JsValue) : String :=
  "Attempt " ++ toString (attempt + 1) ++ ": " ++ errMsgOfThrown e

/-- Observable trace of one `retryWithBackoff` call: the returned
`Result`, how many times the operation was invoked, and the sequence of
delays passed to `sleep` between attempts. -/
structure RetryRun (α : Type) where
  result : Result α String
  calls : ℕ
  delays : List ℤ
deriving Repr

/-- The `for (let attempt = 0; attempt < opts.maxAttempts; attempt++)`
loop of `retryWithBackoff`, recursing on the number of remaining loop
iterations (`remaining = opts.maxAttempts - attempt`).  `op i` is the
outcome of the `i`-th invocation of `operation` (0-indexed) and `rand i`
the `Math.random()` value drawn for the delay after attempt `i`.
The fuel-0 case is the fallback `return Err(...)` after the loop, reached
directly when `maxAttempts = 0`. -/
def retryAux (op : ℕ → AttemptOutcome α) (opts : RequiredRetryOptions) (rand : ℕ → ℚ) :
    ℕ → ℕ → List String → List ℤ → RetryRun α
  | 0, attempt, errors, delays =>
      ⟨.err (finalErrMsg opts.maxAttempts errors), attempt, delays⟩
  | remaining + 1, attempt, errors, delays =>
      match op attempt with
      | .ret (.ok v) => ⟨.ok v, attempt + 1, delays⟩
      | .ret (.err e) =>
          let errors' := errors ++ [retLine attempt e]
          if remaining = 0 then
            ⟨.err (finalErrMsg opts.maxAttempts errors'), attempt + 1, delays⟩
          else
            retryAux op opts rand remaining (attempt + 1) errors'
              (delays ++ [calculateDelay (rand attempt) attempt opts])
      | .thrown e =>
          let errors' := errors ++ [thrownLine attempt e]
          if remaining = 0 then
            ⟨.err (finalErrMsg opts.maxAttempts errors'), attempt + 1, delays⟩
          else
            retryAux op opts rand remaining (attempt + 1) errors'
              (delays ++ [calculateDelay (rand attempt) attempt opts])

/-- `retryWithBackoff(operation, options)` from `src/lib/retry.ts`. -/
def retryWithBackoff (op : ℕ → AttemptOutcome α) (options : RetryOptions)
    (rand : ℕ → ℚ) : RetryRun α :=
  let opts := mergeOptions options
  retryAux op opts rand opts.maxAttempts 0 [] []

/-- C7: the pre-jitter delay for 0-indexed attempt `a` is
`min(maxDelayMs, initialDelayMs * backoffMultiplier ^ a)`; without jitter
the function returns its floor; with jitter the capped delay is perturbed
by `(2r - 1) * (delay/4)` — a uniform `±25%` of the capped delay as `r`
ranges uniformly over `[0, 1)` — floored at 0, and the integer floor of
the result is returned. -/
theorem calculateDelay_spec (options : RequiredRetryOptions) (r : ℚ) (a : ℕ)
    (h0 : 0 ≤ r) (h1 : r < 1) :
    (options.useJitter = false →
      calculateDelay r a options =
        ⌊min (options.initialDelayMs * options.backoffMultiplier ^ a) options.maxDelayMs⌋) ∧
    (options.useJitter = true →
      calculateDelay r a options =
        ⌊max 0 (min (options.initialDelayMs * options.backoffMultiplier ^ a) options.maxDelayMs
          + (2 * r - 1) *
            (min (options.initialDelayMs * options.backoffMultiplier ^ a) options.maxDelayMs / 4))⌋) ∧
    (0 ≤ min (options.initialDelayMs * options.backoffMultiplier ^ a) options.maxDelayMs →
      -(min (options.initialDelayMs * options.backoffMultiplier ^ a) options.maxDelayMs / 4) ≤
        (2 * r - 1) *
          (min (options.initialDelayMs * options.backoffMultiplier ^ a) options.maxDelayMs / 4) ∧
      (2 * r - 1) *
          (min (options.initialDelayMs * options.backoffMultiplier ^ a) options.maxDelayMs / 4) ≤
        min (options.initialDelayMs * options.backoffMultiplier ^ a) options.maxDelayMs / 4) := by
  set d := min (options.initialDelayMs * options.backoffMultiplier ^ a) options.maxDelayMs with hd
  refine ⟨fun hj => by simp [calculateDelay, hj, ← hd], fun hj => ?_, fun hpos => ?_⟩
  · have : r * (d * (1 / 4)) * 2 - d * (1 / 4) = (2 * r - 1) * (d / 4) := by ring
    simp only [calculateDelay, hj, if_true, ← hd, this]
  · constructor
    · have h2 : (-1 : ℚ) ≤ 2 * r - 1 := by linarith
      have h4 : (0 : ℚ) ≤ d / 4 := by linarith
      nlinarith
    · have h2 : 2 * r - 1 ≤ (1 : ℚ) := by linarith
      have h4 : (0 : ℚ) ≤ d / 4 := by linarith
      nlinarith

/-- Closed witness for C7 at `r = 1/2`, attempt 2, default-shaped options. -/
theorem calculateDelay_spec_witness :
    (0 : ℚ) ≤ 1 / 2 ∧ (1 / 2 : ℚ) < 1 ∧
    ((DEFAULT_RETRY_OPTIONS.useJitter = false →
      calculateDelay (1 / 2) 2 DEFAULT_RETRY_OPTIONS =
        ⌊min (DEFAULT_RETRY_OPTIONS.initialDelayMs * DEFAULT_RETRY_OPTIONS.backoffMultiplier ^ 2)
          DEFAULT_RETRY_OPTIONS.maxDelayMs⌋) ∧
    (DEFAULT_RETRY_OPTIONS.useJitter = true →
      calculateDelay (1 / 2) 2 DEFAULT_RETRY_OPTIONS =
        ⌊max 0 (min (DEFAULT_RETRY_OPTIONS.initialDelayMs * DEFAULT_RETRY_OPTIONS.backoffMultiplier ^ 2)
            DEFAULT_RETRY_OPTIONS.maxDelayMs
          + (2 * (1 / 2) - 1) *
            (min (DEFAULT_RETRY_OPTIONS.initialDelayMs * DEFAULT_RETRY_OPTIONS.backoffMultiplier ^ 2)
              DEFAULT_RETRY_OPTIONS.maxDelayMs / 4))⌋) ∧
    (0 ≤ min (DEFAULT_RETRY_OPTIONS.initialDelayMs * DEFAULT_RETRY_OPTIONS.backoffMultiplier ^ 2)
        DEFAULT_RETRY_OPTIONS.maxDelayMs →
      -(min (DEFAULT_RETRY_OPTIONS.initialDelayMs * DEFAULT_RETRY_OPTIONS.backoffMultiplier ^ 2)
          DEFAULT_RETRY_OPTIONS.maxDelayMs / 4) ≤
        (2 * (1 / 2) - 1) *
          (min (DEFAULT_RETRY_OPTIONS.initialDelayMs * DEFAULT_RETRY_OPTIONS.backoffMultiplier ^ 2)
            DEFAULT_RETRY_OPTIONS.maxDelayMs / 4) ∧
      (2 * (1 / 2) - 1) *
          (min (DEFAULT_RETRY_OPTIONS.initialDelayMs * DEFAULT_RETRY_OPTIONS.backoffMultiplier ^ 2)
            DEFAULT_RETRY_OPTIONS.maxDelayMs / 4) ≤
        min (DEFAULT_RETRY_OPTIONS.initialDelayMs * DEFAULT_RETRY_OPTIONS.backoffMultiplier ^ 2)
          DEFAULT_RETRY_OPTIONS.maxDelayMs / 4)) :=
  ⟨by norm_num, by norm_num,
    calculateDelay_spec DEFAULT_RETRY_OPTIONS (1 / 2) 2 (by norm_num) (by norm_num)⟩

/-- C10: with `maxAttempts = 0` the attempt loop body never runs, the
operation is never invoked, and the fallback return yields the failure
whose message is the "failed after 0 attempts" header, a newline, and no
attempt lines. -/
theorem retryWithBackoff_zero_attempts (α : Type) (op : ℕ → AttemptOutcome α)
    (options : RetryOptions) (rand : ℕ → ℚ) :
    retryWithBackoff op { options with maxAttempts := some 0 } rand =
      ⟨.err "Operation failed after 0 attempts:\n", 0, []⟩ := by
  simp [retryWithBackoff, mergeOptions, retryAux, finalErrMsg]
  rfl

theorem retryAux_succ_ok {α : Type} {op : ℕ → AttemptOutcome α} {opts : RequiredRetryOptions}
    {rand : ℕ → ℚ} {r attempt : ℕ} {errors : List String} {delays : List ℤ} {v : α}
    (h : op attempt = .ret (.ok v)) :
    retryAux op opts rand (r + 1) attempt errors delays = ⟨.ok v, attempt + 1, delays⟩ := by
  simp [retryAux, h]

theorem retryAux_fail_last {α : Type} {op : ℕ → AttemptOutcome α} {opts : RequiredRetryOptions}
    {rand : ℕ → ℚ} {attempt : ℕ} {errors : List String} {delays : List ℤ} {e : JsValue}
    (h : op attempt = .ret (.err e)) :
    retryAux op opts rand 1 attempt errors delays =
      ⟨.err (finalErrMsg opts.maxAttempts (errors ++ [retLine attempt e])), attempt + 1, delays⟩ := by
  simp [retryAux, h]

theorem retryAux_fail_step {α : Type} {op : ℕ → AttemptOutcome α} {opts : RequiredRetryOptions}
    {rand : ℕ → ℚ} {r attempt : ℕ} {errors : List String} {delays : List ℤ} {e : JsValue}
    (h : op attempt = .ret (.err e)) (hr : r ≠ 0) :
    retryAux op opts rand (r + 1) attempt errors delays =
      retryAux op opts rand r (attempt + 1) (errors ++ [retLine attempt e])
        (delays ++ [calculateDelay (rand attempt) attempt opts]) := by
  simp [retryAux, h, hr]

theorem retryAux_thrown_last {α : Type} {op : ℕ → AttemptOutcome α} {opts : RequiredRetryOptions}
    {rand : ℕ → ℚ} {attempt : ℕ} {errors : List String} {delays : List ℤ} {e : JsValue}
    (h : op attempt = .thrown e) :
    retryAux op opts rand 1 attempt errors delays =
      ⟨.err (finalErrMsg opts.maxAttempts (errors ++ [thrownLine attempt e])), attempt + 1, delays⟩ := by
  simp [retryAux, h]

theorem retryAux_thrown_step {α : Type} {op : ℕ → AttemptOutcome α} {opts : RequiredRetryOptions}
    {rand : ℕ → ℚ} {r attempt : ℕ} {errors : List String} {delays : List ℤ} {e : JsValue}
    (h : op attempt = .thrown e) (hr : r ≠ 0) :
    retryAux op opts rand (r + 1) attempt errors delays =
      retryAux op opts rand r (attempt + 1) (errors ++ [thrownLine attempt e])
        (delays ++ [calculateDelay (rand attempt) attempt opts]) := by
  simp [retryAux, h, hr]

theorem retryAux_ignores_classifier {α : Type} (op : ℕ → AttemptOutcome α)
    (m : ℕ) (i x b : ℚ) (j : Bool) (p1 p2 : JsValue → Bool) (rand : ℕ → ℚ) :
    ∀ r attempt errors delays,
      retryAux op ⟨m, i, x, b, j, p1⟩ rand r attempt errors delays =
        retryAux op ⟨m, i, x, b, j, p2⟩ rand r attempt errors delays := by
  intro r
  induction r with
  | zero => intro attempt errors delays; rfl
  | succ r ih =>
    intro attempt errors delays
    cases hop : op attempt with
    | ret res =>
      cases res with
      | ok v => rw [retryAux_succ_ok hop, retryAux_succ_ok hop]
      | err e =>
        rcases Nat.eq_zero_or_pos r with hr | hr
        · subst hr; rw [retryAux_fail_last hop, retryAux_fail_last hop]
        · rw [retryAux_fail_step hop (Nat.pos_iff_ne_zero.mp hr),
            retryAux_fail_step hop (Nat.pos_iff_ne_zero.mp hr)]
          exact ih _ _ _
    | thrown e =>
      rcases Nat.eq_zero_or_pos r with hr | hr
      · subst hr; rw [retryAux_thrown_last hop, retryAux_thrown_last hop]
      · rw [retryAux_thrown_step hop (Nat.pos_iff_ne_zero.mp hr),
          retryAux_thrown_step hop (Nat.pos_iff_ne_zero.mp hr)]
        exact ih _ _ _

/-- C3: `retryWithBackoff` never consults the `isRetryable` classifier —
runs that differ only in the `isRetryable` option produce the same result,
the same number of operation invocations, and the same delays. -/
theorem retryWithBackoff_ignores_isRetryable {α : Type} (op : ℕ → AttemptOutcome α)
    (options : RetryOptions) (rand : ℕ → ℚ) (p1 p2 : JsValue → Bool) :
    retryWithBackoff op { options with isRetryable := some p1 } rand =
      retryWithBackoff op { options with isRetryable := some p2 } rand := by
  simp only [retryWithBackoff, mergeOptions, Option.getD_some]
  exact retryAux_ignores_classifier op _ _ _ _ _ p1 p2 rand _ 0 [] []

theorem retryAux_all_fail {α : Type} (es : ℕ → JsValue) (opts : RequiredRetryOptions)
    (rand : ℕ → ℚ) :
    ∀ r attempt errors delays, 0 < r →
      retryAux (α := α) (fun i => AttemptOutcome.ret (Result.err (es i))) opts rand r attempt errors delays =
        ⟨.err (finalErrMsg opts.maxAttempts
            (errors ++ (List.range r).map fun j => retLine (attempt + j) (es (attempt + j)))),
          attempt + r,
          delays ++ (List.range (r - 1)).map fun j =>
            calculateDelay (rand (attempt + j)) (attempt + j) opts⟩ := by
  intro r
  induction r with
  | zero => intro attempt errors delays h; exact absurd h (by omega)
  | succ r ih =>
    intro attempt errors delays _
    rcases Nat.eq_zero_or_pos r with hr | hr
    · subst hr
      rw [retryAux_fail_last rfl]
      have h1 : List.range 1 = [0] := rfl
      have h0 : List.range 0 = [] := rfl
      simp [h1, h0]
    · rw [retryAux_fail_step rfl (Nat.pos_iff_ne_zero.mp hr)]
      rw [ih (attempt + 1) _ _ hr]
      have hsucc : ∀ j : ℕ, attempt + 1 + j = attempt + (j + 1) := by omega
      have hrange : List.range (r + 1) = 0 :: (List.range r).map Nat.succ :=
        List.range_succ_eq_map r
      have hrange' : List.range (r + 1 - 1) = 0 :: (List.range (r - 1)).map Nat.succ := by
        have h : r + 1 - 1 = (r - 1) + 1 := by omega
        rw [h, List.range_succ_eq_map]
      simp only [RetryRun.mk.injEq]
      refine ⟨?_, by omega, ?_⟩
      · rw [hrange]
        simp only [List.map_cons, List.map_map, Function.comp_def, Nat.succ_eq_add_one,
          Nat.add_zero, hsucc]
        simp [List.append_assoc]
      · rw [hrange']
        simp only [List.map_cons, List.map_map, Function.comp_def, Nat.succ_eq_add_one,
          Nat.add_zero, hsucc]
        simp [List.append_assoc]

/-- C1: for an operation that returns the failure variant on every
invocation and `maxAttempts = N ≥ 1`, `retryWithBackoff` invokes the
operation exactly `N` times and returns the failure whose message is the
"failed after N attempts" header followed by the newline-joined errors of
every attempt, each prefixed with its 1-indexed attempt number. -/
theorem retryWithBackoff_always_fail {α : Type} (es : ℕ → JsValue)
    (options : RetryOptions) (rand : ℕ → ℚ) (N : ℕ)
    (hN : options.maxAttempts = some N) (h1 : 1 ≤ N) :
    (retryWithBackoff (α := α) (fun i => AttemptOutcome.ret (Result.err (es i))) options rand).calls = N ∧
    (retryWithBackoff (α := α) (fun i => AttemptOutcome.ret (Result.err (es i))) options rand).result =
      .err ("Operation failed after " ++ toString N ++ " attempts:\n" ++
        String.intercalate "\n" ((List.range N).map fun i =>
          "Attempt " ++ toString (i + 1) ++ ": " ++ errMsgOfReturned (es i))) := by
  have hmax : (mergeOptions options).maxAttempts = N := by
    simp [mergeOptions, hN]
  simp only [retryWithBackoff]
  rw [hmax, retryAux_all_fail es (mergeOptions options) rand N 0 [] [] (by omega)]
  constructor
  · simp
  · simp [finalErrMsg, hmax, retLine]

/-- Closed witness for C1: an operation failing every time with the string
error `"boom"`, `maxAttempts = 2`. -/
theorem retryWithBackoff_always_fail_witness :
    ({ maxAttempts := some 2 } : RetryOptions).maxAttempts = some 2 ∧ 1 ≤ 2 ∧
    ((retryWithBackoff (α := Unit) (fun _ => AttemptOutcome.ret (Result.err (JsValue.str "boom")))
        { maxAttempts := some 2 } (fun _ => 0)).calls = 2 ∧
      (retryWithBackoff (α := Unit) (fun _ => AttemptOutcome.ret (Result.err (JsValue.str "boom")))
        { maxAttempts := some 2 } (fun _ => 0)).result =
        .err ("Operation failed after " ++ toString 2 ++ " attempts:\n" ++
          String.intercalate "\n" ((List.range 2).map fun i =>
            "Attempt " ++ toString (i + 1) ++ ": " ++ errMsgOfReturned (JsValue.str "boom")))) :=
  ⟨rfl, by omega,
    retryWithBackoff_always_fail (α := Unit) (fun _ => JsValue.str "boom")
      { maxAttempts := some 2 } (fun _ => 0) 2 rfl (by omega)⟩

theorem retryAux_first_success {α : Type} (op : ℕ → AttemptOutcome α)
    (opts : RequiredRetryOptions) (rand : ℕ → ℚ) (v : α) :
    ∀ j r attempt errors delays, j < r →
      op (attempt + j) = .ret (.ok v) →
      (∀ i, i < j → ∀ w, op (attempt + i) ≠ .ret (.ok w)) →
      ∃ ds : List ℤ,
        retryAux op opts rand r attempt errors delays =
          ⟨.ok v, attempt + j + 1, delays ++ ds⟩ ∧ ds.length = j := by
  intro j
  induction j with
  | zero =>
    intro r attempt errors delays hjr hok _
    obtain ⟨r', rfl⟩ : ∃ r', r = r' + 1 := ⟨r - 1, by omega⟩
    refine ⟨[], ?_, rfl⟩
    rw [retryAux_succ_ok (by simpa using hok)]
    simp
  | succ j ih =>
    intro r attempt errors delays hjr hok hfail
    obtain ⟨r', rfl⟩ : ∃ r', r = r' + 1 := ⟨r - 1, by omega⟩
    have hr' : r' ≠ 0 := by omega
    have hnot : ∀ w, op attempt ≠ .ret (.ok w) := by
      intro w
      simpa using hfail 0 (by omega) w
    have hok' : op (attempt + 1 + j) = .ret (.ok v) := by
      have : attempt + 1 + j = attempt + (j + 1) := by omega
      rw [this]; exact hok
    have hfail' : ∀ i, i < j → ∀ w, op (attempt + 1 + i) ≠ .ret (.ok w) := by
      intro i hi w
      have : attempt + 1 + i = attempt + (i + 1) := by omega
      rw [this]
      exact hfail (i + 1) (by omega) w
    cases hop : op attempt with
    | ret res =>
      cases res with
      | ok w => exact absurd hop (hnot w)
      | err e =>
        obtain ⟨ds, heq, hlen⟩ := ih r' (attempt + 1) (errors ++ [retLine attempt e])
          (delays ++ [calculateDelay (rand attempt) attempt opts]) (by omega) hok' hfail'
        refine ⟨calculateDelay (rand attempt) attempt opts :: ds, ?_, by simp [hlen]⟩
        rw [retryAux_fail_step hop hr', heq]
        have : attempt + 1 + j + 1 = attempt + (j + 1) + 1 := by omega
        rw [this]
        simp
    | thrown e =>
      obtain ⟨ds, heq, hlen⟩ := ih r' (attempt + 1) (errors ++ [thrownLine attempt e])
        (delays ++ [calculateDelay (rand attempt) attempt opts]) (by omega) hok' hfail'
      refine ⟨calculateDelay (rand attempt) attempt opts :: ds, ?_, by simp [hlen]⟩
      rw [retryAux_thrown_step hop hr', heq]
      have : attempt + 1 + j + 1 = attempt + (j + 1) + 1 := by omega
      rw [this]
      simp

/-- C2: if the operation first returns the success variant on attempt
`k ≤ N` (1-indexed), `retryWithBackoff` invokes the operation exactly `k`
times, returns that success variant unchanged, and only the `k - 1`
inter-attempt delays before the success occur. -/
theorem retryWithBackoff_early_exit {α : Type} (op : ℕ → AttemptOutcome α)
    (options : RetryOptions) (rand : ℕ → ℚ) (N k : ℕ) (v : α)
    (hN : options.maxAttempts = some N) (hk1 : 1 ≤ k) (hkN : k ≤ N)
    (hsucc : op (k - 1) = .ret (.ok v))
    (hfail : ∀ i, i + 1 < k → ∀ w, op i ≠ .ret (.ok w)) :
    (retryWithBackoff op options rand).result = .ok v ∧
    (retryWithBackoff op options rand).calls = k ∧
    (retryWithBackoff op options rand).delays.length = k - 1 := by
  have hmax : (mergeOptions options).maxAttempts = N := by
    simp [mergeOptions, hN]
  obtain ⟨ds, heq, hlen⟩ := retryAux_first_success op (mergeOptions options) rand v
    (k - 1) N 0 [] [] (by omega) (by simpa using hsucc)
    (by intro i hi w; simpa using hfail i (by omega) w)
  simp only [retryWithBackoff]
  rw [hmax, heq]
  refine ⟨rfl, by simp; omega, by simp [hlen]⟩

/-- Closed witness for C2: an operation failing once then succeeding,
`maxAttempts = 3`, first success on attempt `k = 2`. -/
theorem retryWithBackoff_early_exit_witness :
    ({ maxAttempts := some 3 } : RetryOptions).maxAttempts = some 3 ∧ 1 ≤ 2 ∧ 2 ≤ 3 ∧
    (fun i => if i = 0 then AttemptOutcome.ret (Result.err (JsValue.str "e0"))
      else AttemptOutcome.ret (Result.ok ())) (2 - 1) = .ret (.ok ()) ∧
    (∀ i, i + 1 < 2 → ∀ w,
      (fun i => if i = 0 then AttemptOutcome.ret (Result.err (JsValue.str "e0"))
        else AttemptOutcome.ret (Result.ok ())) i ≠ .ret (.ok w)) ∧
    ((retryWithBackoff (fun i => if i = 0 then AttemptOutcome.ret (Result.err (JsValue.str "e0"))
        else AttemptOutcome.ret (Result.ok ())) { maxAttempts := some 3 } (fun _ => 0)).result =
          .ok () ∧
      (retryWithBackoff (fun i => if i = 0 then AttemptOutcome.ret (Result.err (JsValue.str "e0"))
        else AttemptOutcome.ret (Result.ok ())) { maxAttempts := some 3 } (fun _ => 0)).calls = 2 ∧
      (retryWithBackoff (fun i => if i = 0 then AttemptOutcome.ret (Result.err (JsValue.str "e0"))
        else AttemptOutcome.ret (Result.ok ())) { maxAttempts := some 3 }
          (fun _ => 0)).delays.length = 2 - 1) :=
  ⟨rfl, by omega, by omega, by simp,
    by
      intro i hi w
      have hi0 : i = 0 := by omega
      subst hi0
      simp,
    retryWithBackoff_early_exit
      (fun i => if i = 0 then AttemptOutcome.ret (Result.err (JsValue.str "e0"))
        else AttemptOutcome.ret (Result.ok ()))
      { maxAttempts := some 3 } (fun _ => 0) 3 2 () rfl (by omega) (by omega)
      (by simp)
      (by
        intro i hi w
        have hi0 : i = 0 := by omega
        subst hi0
        simp)⟩

/-! ## Validators (`src/lib/validators.ts`) -/

/-- UTF-16 code units contributed by one code point — what JavaScript's
`String.prototype.length` counts (code points above `0xFFFF` take a
surrogate pair). -/
def charUnits (c : Char) : ℕ := if c.toNat < 65536 then 1 else 2

/-- JavaScript `.length` of a string given as its list of code points. -/
def jsLength (l : List Char) : ℕ := (l.map charUnits).sum

/-- The characters removed by JavaScript `String.prototype.trim`:
ECMAScript WhiteSpace (TAB, VT, FF, SP, NBSP, ZWNBSP, the Unicode
space separators) and the LineTerminator code points. -/
def isJsWhitespace (c : Char) : Bool :=
  c.toNat = 9 || c.toNat = 10 || c.toNat = 11 || c.toNat = 12 || c.toNat = 13 ||
  c.toNat = 32 || c.toNat = 160 || c.toNat = 5760 ||
  (8192 ≤ c.toNat && c.toNat ≤ 8202) ||
  c.toNat = 8232 || c.toNat = 8233 || c.toNat = 8239 || c.toNat = 8287 ||
  c.toNat = 12288 || c.toNat = 65279

/-- JavaScript `value.trim()`: leading and trailing whitespace removed. -/
def jsTrim (l : List Char) : List Char :=
  ((l.dropWhile isJsWhitespace).reverse.dropWhile isJsWhitespace).reverse

/-- The UTF-8 byte size of a string given as its list of code points. -/
def utf8ByteSizeOf (l : List Char) : ℕ := (l.map Char.utf8Size).sum

/-- The `{valid, error?}` record returned by the detailed validators. -/
structure ValidationResult where
  valid : Bool
  error : Option String := none
deriving Repr, DecidableEq

/-- `validateSecretValue(value)` from `src/lib/validators.ts`:
`!value || value.trim().length === 0` rejects, then
`value.length > 1024 * 1024` rejects, else valid. -/
def validateSecretValue (value : String) : ValidationResult :=
  if value.toList = [] ∨ jsTrim value.toList = [] then
    ⟨false, some "Secret value is required"⟩
  else if 1024 * 1024 < jsLength value.toList then
    ⟨false, some "Secret value must be less than 1MB"⟩
  else
    ⟨true, none⟩

theorem jsTrim_nil : jsTrim [] = [] := rfl

theorem jsTrim_replicate_not_ws {c : Char} (hc : isJsWhitespace c = false) (n : ℕ) :
    jsTrim (List.replicate n c) = List.replicate n c := by
  cases n with
  | zero => rfl
  | succ m =>
    have hdrop : List.dropWhile isJsWhitespace (List.replicate (m + 1) c) =
        List.replicate (m + 1) c := by
      rw [List.replicate_succ, List.dropWhile_cons, hc]
      simp
    unfold jsTrim
    rw [hdrop, List.reverse_replicate, hdrop, List.reverse_replicate]

theorem jsLength_replicate (n : ℕ) (c : Char) :
    jsLength (List.replicate n c) = n * charUnits c := by
  simp [jsLength, List.map_replicate, List.sum_replicate, smul_eq_mul]

theorem utf8ByteSizeOf_replicate (n : ℕ) (c : Char) :
    utf8ByteSizeOf (List.replicate n c) = n * c.utf8Size := by
  simp [utf8ByteSizeOf, List.map_replicate, List.sum_replicate, smul_eq_mul]

/-- A secret value of 1,048,576 copies of the two-UTF-8-byte character
`'é'`: exactly at the character-count limit, twice over the byte limit. -/
def bigAccented : List Char := List.replicate 1048576 'é'

/-- Counterexample to C5 as stated: `validateSecretValue` accepts this
value although its UTF-8 size, 2,097,152 bytes, exceeds 1,048,576 bytes —
the code limits `value.length` (UTF-16 code units), not bytes. -/
theorem validateSecretValue_bytes_counterexample :
    (validateSecretValue (String.mk bigAccented)).valid = true ∧
    1048576 < utf8ByteSizeOf bigAccented := by
  have hws : isJsWhitespace 'é' = false := by decide
  have htrim : jsTrim bigAccented = bigAccented := jsTrim_replicate_not_ws hws 1048576
  have hne : bigAccented ≠ [] := by
    intro h
    have hlen0 := congrArg List.length h
    rw [bigAccented] at hlen0
    simp only [List.length_replicate, List.length_nil] at hlen0
    omega
  have hlist : (String.mk bigAccented).toList = bigAccented := rfl
  constructor
  · unfold validateSecretValue
    rw [hlist, htrim]
    have hlen : jsLength bigAccented = 1048576 := by
      have h1 : charUnits 'é' = 1 := by decide
      rw [bigAccented, jsLength_replicate, h1, Nat.mul_one]
    rw [hlen]
    simp [hne]
  · have : Char.utf8Size 'é' = 2 := by decide
    rw [bigAccented, utf8ByteSizeOf_replicate, this]
    norm_num

/-- C5 as amended: `validateSecretValue` reports valid iff the value is
non-empty after trimming whitespace and its length is at most 1,048,576
UTF-16 code units (`value.length`), not bytes. -/
theorem validateSecretValue_spec (value : String) :
    (validateSecretValue value).valid = true ↔
      (jsTrim value.toList ≠ [] ∧ jsLength value.toList ≤ 1024 * 1024) := by
  unfold validateSecretValue
  split_ifs with h1 h2
  · refine ⟨fun h => h.elim, fun h => ?_⟩
    rcases h1 with h1 | h1
    · exact absurd (show jsTrim value.toList = [] by rw [h1]; rfl) h.1
    · exact absurd h1 h.1
  · exact ⟨fun h => h.elim, fun h => absurd h.2 (by omega)⟩
  · push_neg at h1
    exact ⟨fun _ => ⟨h1.2, by omega⟩, fun _ => rfl⟩

/-- The regex character class `[a-z0-9]`. -/
def isLowerAlnumChar (c : Char) : Bool :=
  (97 ≤ c.toNat && c.toNat ≤ 122) || (48 ≤ c.toNat && c.toNat ≤ 57)

/-- The regex character class `[-a-z0-9]`. -/
def isNameChar (c : Char) : Bool := isLowerAlnumChar c || c == '-'

/-- The optional part `([-a-z0-9]*[a-z0-9])?` of a DNS-1123 label. -/
def tailOk : List Char → Bool
  | [] => true
  | [c] => isLowerAlnumChar c
  | c :: cs => isNameChar c && tailOk cs

/-- One DNS-1123 label, `[a-z0-9]([-a-z0-9]*[a-z0-9])?`. -/
def labelOk : List Char → Bool
  | [] => false
  | c :: cs => isLowerAlnumChar c && tailOk cs

/-- Split a character list at every `'.'`; `splitOnDot l` is never empty,
and the anchored regex `^L(\.L)*$` holds iff every piece matches `L`. -/
def splitOnDot : List Char → List (List Char)
  | [] => [[]]
  | c :: cs =>
    if c = '.' then [] :: splitOnDot cs
    else
      match splitOnDot cs with
      | [] => [[c]]
      | l :: ls => (c :: l) :: ls

/-- `isValidK8sName(name)` from `src/lib/validators.ts`: the emptiness and
length guard, then the DNS-1123 subdomain regex
`^[a-z0-9]([-a-z0-9]*[a-z0-9])?(\.[a-z0-9]([-a-z0-9]*[a-z0-9])?)*$`,
rendered as: every `'.'`-separated piece matches the label pattern. -/
def isValidK8sName (name : String) : Bool :=
  if jsLength name.toList = 0 ∨ 253 < jsLength name.toList then false
  else (splitOnDot name.toList).all labelOk

/-- `validateSecretName(name)` from `src/lib/validators.ts`. -/
def validateSecretName (name : String) : ValidationResult :=
  if name.toList = [] ∨ jsTrim name.toList = [] then
    ⟨false, some "Secret name is required"⟩
  else if 253 < jsLength name.toList then
    ⟨false, some "Secret name must be 253 characters or less"⟩
  else if isValidK8sName name = false then
    ⟨false, some
      "Secret name must be lowercase alphanumeric, may contain hyphens and dots, and must start/end with alphanumeric"⟩
  else
    ⟨true, none⟩

/-- The claim's per-label condition, phrased from the spec's words: a
non-empty word of lowercase alphanumerics and hyphens that starts and ends
with a lowercase alphanumeric character. -/
def labelSpec (l : List Char) : Prop :=
  l ≠ [] ∧ (∀ c ∈ l, isLowerAlnumChar c = true ∨ c = '-') ∧
  (∀ c, l.head? = some c → isLowerAlnumChar c = true) ∧
  (∀ c, l.getLast? = some c → isLowerAlnumChar c = true)

/-- Join words with `'.'` separators ("dot-separated labels"). -/
def joinDots : List (List Char) → List Char
  | [] => []
  | [l] => l
  | l :: ls => l ++ '.' :: joinDots ls

/-- The claim's DNS-subdomain grammar, phrased from the spec's words: the
name is a dot-separated sequence of labels, each satisfying `labelSpec`. -/
def dnsSubdomainGrammar (name : String) : Prop :=
  ∃ labels : List (List Char), labels ≠ [] ∧ name.toList = joinDots labels ∧
    ∀ l ∈ labels, labelSpec l

theorem isNameChar_iff {c : Char} :
    isNameChar c = true ↔ (isLowerAlnumChar c = true ∨ c = '-') := by
  simp [isNameChar]

theorem tailOk_iff : ∀ cs : List Char, tailOk cs = true ↔
    ((∀ c ∈ cs, isNameChar c = true) ∧
      ∀ c, cs.getLast? = some c → isLowerAlnumChar c = true) := by
  intro cs
  induction cs with
  | nil => simp [tailOk]
  | cons c cs ih =>
    cases cs with
    | nil =>
      simp only [tailOk, List.mem_singleton, List.getLast?_singleton]
      constructor
      · intro h
        refine ⟨fun x hx => ?_, fun x hx => ?_⟩
        · subst hx; exact isNameChar_iff.mpr (Or.inl h)
        · cases hx; exact h
      · intro ⟨_, hlast⟩
        exact hlast c rfl
    | cons d ds =>
      rw [show tailOk (c :: d :: ds) = (isNameChar c && tailOk (d :: ds)) from rfl,
        Bool.and_eq_true, ih]
      constructor
      · intro ⟨hc, hall, hlast⟩
        refine ⟨fun x hx => ?_, fun x hx => hlast x (by rw [← List.getLast?_cons_cons, hx])⟩
        rcases List.mem_cons.mp hx with rfl | hx
        · exact hc
        · exact hall x hx
      · intro ⟨hall, hlast⟩
        exact ⟨hall c (List.mem_cons_self c _),
          fun x hx => hall x (List.mem_cons_of_mem c hx),
          fun x hx => hlast x (by rw [List.getLast?_cons_cons, hx])⟩

theorem labelOk_iff : ∀ l : List Char, labelOk l = true ↔ labelSpec l := by
  intro l
  cases l with
  | nil =>
    simp only [labelOk, labelSpec]
    simp
  | cons c cs =>
    rw [show labelOk (c :: cs) = (isLowerAlnumChar c && tailOk cs) from rfl,
      Bool.and_eq_true, tailOk_iff]
    unfold labelSpec
    constructor
    · intro ⟨hc, hall, hlast⟩
      refine ⟨by simp, fun x hx => ?_, fun x hx => ?_, fun x hx => ?_⟩
      · rcases List.mem_cons.mp hx with rfl | hx
        · exact Or.inl hc
        · exact isNameChar_iff.mp (hall x hx)
      · rw [List.head?_cons, Option.some_inj] at hx
        exact hx ▸ hc
      · cases cs with
        | nil =>
          rw [List.getLast?_singleton, Option.some_inj] at hx
          exact hx ▸ hc
        | cons d ds =>
          rw [List.getLast?_cons_cons] at hx
          exact hlast x hx
    · intro ⟨_, hall, hhead, hlast⟩
      have hc : isLowerAlnumChar c = true := hhead c (by rw [List.head?_cons])
      refine ⟨hc, fun x hx => isNameChar_iff.mpr (hall x (List.mem_cons_of_mem c hx)),
        fun x hx => ?_⟩
      cases cs with
      | nil => cases hx
      | cons d ds => exact hlast x (by rw [List.getLast?_cons_cons]; exact hx)

theorem splitOnDot_ne_nil : ∀ l : List Char, splitOnDot l ≠ [] := by
  intro l
  cases l with
  | nil => simp [splitOnDot]
  | cons c cs =>
    by_cases hc : c = '.'
    · simp [splitOnDot, hc]
    · cases h : splitOnDot cs with
      | nil => simp [splitOnDot, hc, h]
      | cons m ms => simp [splitOnDot, hc, h]

theorem splitOnDot_cons_dot (cs : List Char) :
    splitOnDot ('.' :: cs) = [] :: splitOnDot cs := by
  simp [splitOnDot]

theorem splitOnDot_cons_ne {c : Char} (hc : c ≠ '.') {cs m : List Char}
    {ms : List (List Char)} (h : splitOnDot cs = m :: ms) :
    splitOnDot (c :: cs) = (c :: m) :: ms := by
  simp [splitOnDot, hc, h]

theorem joinDots_cons_of_ne_nil {ls : List (List Char)} (h : ls ≠ []) (l : List Char) :
    joinDots (l :: ls) = l ++ '.' :: joinDots ls := by
  cases ls with
  | nil => exact absurd rfl h
  | cons a as => rfl

theorem joinDots_splitOnDot : ∀ l : List Char, joinDots (splitOnDot l) = l := by
  intro l
  induction l with
  | nil => rfl
  | cons c cs ih =>
    by_cases hc : c = '.'
    · subst hc
      rw [splitOnDot_cons_dot, joinDots_cons_of_ne_nil (splitOnDot_ne_nil cs), ih]
      rfl
    · cases h : splitOnDot cs with
      | nil => exact absurd h (splitOnDot_ne_nil cs)
      | cons m ms =>
        rw [splitOnDot_cons_ne hc h]
        rw [h] at ih
        cases ms with
        | nil =>
          have : joinDots [m] = m := rfl
          rw [this] at ih
          show c :: m = c :: cs
          rw [ih]
        | cons m2 ms2 =>
          rw [joinDots_cons_of_ne_nil (by simp) (c :: m),
            joinDots_cons_of_ne_nil (by simp) m] at *
          rw [List.cons_append, ih]

theorem splitOnDot_append_no_dot :
    ∀ L : List Char, (∀ c ∈ L, c ≠ '.') → ∀ m r rs, splitOnDot m = r :: rs →
      splitOnDot (L ++ m) = (L ++ r) :: rs := by
  intro L
  induction L with
  | nil => intro _ m r rs h; simpa using h
  | cons c L ih =>
    intro hdot m r rs h
    have hc : c ≠ '.' := hdot c (List.mem_cons_self c L)
    have := ih (fun x hx => hdot x (List.mem_cons_of_mem c hx)) m r rs h
    rw [List.cons_append, splitOnDot_cons_ne hc this, List.cons_append]

theorem splitOnDot_joinDots :
    ∀ labels : List (List Char), labels ≠ [] →
      (∀ l ∈ labels, ∀ c ∈ l, c ≠ '.') →
      splitOnDot (joinDots labels) = labels := by
  intro labels
  induction labels with
  | nil => intro h; exact absurd rfl h
  | cons L ls ih =>
    intro _ hdot
    cases ls with
    | nil =>
      have h0 : splitOnDot ([] : List Char) = [] :: [] := rfl
      have := splitOnDot_append_no_dot L (hdot L (List.mem_cons_self L _)) [] [] [] h0
      simpa using this
    | cons L2 ls2 =>
      rw [joinDots_cons_of_ne_nil (by simp)]
      have hrec : splitOnDot (joinDots (L2 :: ls2)) = L2 :: ls2 :=
        ih (by simp) (fun l hl => hdot l (List.mem_cons_of_mem L hl))
      have hdotrec : splitOnDot ('.' :: joinDots (L2 :: ls2)) = [] :: L2 :: ls2 := by
        rw [splitOnDot_cons_dot, hrec]
      have := splitOnDot_append_no_dot L (hdot L (List.mem_cons_self L _)) _ _ _ hdotrec
      simpa using this

theorem mem_joinDots :
    ∀ labels : List (List Char), ∀ c ∈ joinDots labels,
      (∃ l ∈ labels, c ∈ l) ∨ c = '.' := by
  intro labels
  induction labels with
  | nil => intro c hc; cases hc
  | cons L ls ih =>
    intro c hc
    cases ls with
    | nil => exact Or.inl ⟨L, List.mem_singleton_self L, hc⟩
    | cons L2 ls2 =>
      rw [joinDots_cons_of_ne_nil (by simp)] at hc
      rcases List.mem_append.mp hc with hc | hc
      · exact Or.inl ⟨L, List.mem_cons_self L _, hc⟩
      · rcases List.mem_cons.mp hc with rfl | hc
        · exact Or.inr rfl
        · rcases ih c hc with ⟨l, hl, hcl⟩ | hdot
          · exact Or.inl ⟨l, List.mem_cons_of_mem L hl, hcl⟩
          · exact Or.inr hdot

theorem ws_not_alnum {c : Char} (h : isJsWhitespace c = true) :
    isLowerAlnumChar c = false := by
  by_contra hc
  rw [Bool.not_eq_false] at hc
  simp only [isJsWhitespace, Bool.or_eq_true, Bool.and_eq_true, decide_eq_true_eq] at h
  simp only [isLowerAlnumChar, Bool.or_eq_true, Bool.and_eq_true, decide_eq_true_eq] at hc
  omega

theorem ws_ne_dot {c : Char} (h : isJsWhitespace c = true) : c ≠ '.' :=
  fun hc => absurd (hc ▸ h) (by decide)

theorem labelChar_props {c : Char} (h : isLowerAlnumChar c = true ∨ c = '-') :
    c.toNat < 65536 ∧ c ≠ '.' := by
  rcases h with h | h
  · constructor
    · simp only [isLowerAlnumChar, Bool.or_eq_true, Bool.and_eq_true,
        decide_eq_true_eq] at h
      omega
    · intro hc
      subst hc
      exact absurd h (by decide)
  · subst h
    exact ⟨by decide, by decide⟩

theorem jsLength_eq_length {l : List Char} (h : ∀ c ∈ l, c.toNat < 65536) :
    jsLength l = l.length := by
  induction l with
  | nil => rfl
  | cons c t ih =>
    have hc : charUnits c = 1 := by
      unfold charUnits
      rw [if_pos (h c (List.mem_cons_self c t))]
    unfold jsLength at ih ⊢
    simp only [List.map_cons, List.sum_cons, hc, List.length_cons]
    rw [ih (fun x hx => h x (List.mem_cons_of_mem c hx))]
    omega

theorem jsLength_nil_iff {l : List Char} : jsLength l = 0 ↔ l = [] := by
  cases l with
  | nil => simp [jsLength]
  | cons c t =>
    simp only [jsLength, List.map_cons, List.sum_cons]
    have : 1 ≤ charUnits c := by unfold charUnits; split_ifs <;> omega
    constructor
    · intro h; omega
    · intro h; cases h

theorem toList_eq_nil_iff (s : String) : s.toList = [] ↔ s = "" := by
  cases s with
  | mk data =>
    constructor
    · intro h
      show String.mk data = String.mk []
      rw [show String.toList (String.mk data) = data from rfl] at h
      rw [h]
    · intro h
      rw [h]
      rfl

theorem mem_dropWhile_of_not {c : Char} (p : Char → Bool) :
    ∀ l : List Char, c ∈ l → p c = false → c ∈ l.dropWhile p := by
  intro l
  induction l with
  | nil => intro h; cases h
  | cons a t ih =>
    intro hmem hc
    rw [List.dropWhile_cons]
    by_cases ha : p a = true
    · rw [if_pos ha]
      rcases List.mem_cons.mp hmem with rfl | hmem
      · exact absurd ha (by rw [hc]; simp)
      · exact ih hmem hc
    · rw [if_neg ha]
      exact hmem

theorem jsTrim_cons_ne_nil {c : Char} {t : List Char}
    (hc : isJsWhitespace c = false) : jsTrim (c :: t) ≠ [] := by
  unfold jsTrim
  rw [List.dropWhile_cons, hc]
  simp only [Bool.false_eq_true, if_false]
  intro h
  rw [List.reverse_eq_nil_iff] at h
  have hmem : c ∈ (c :: t).reverse := by simp
  exact absurd (h ▸ mem_dropWhile_of_not isJsWhitespace _ hmem hc) (List.not_mem_nil c)

theorem splitOnDot_head_not_alnum {c : Char} (cs : List Char) (hdot : c ≠ '.')
    (halnum : isLowerAlnumChar c = false) :
    (splitOnDot (c :: cs)).all labelOk = false := by
  cases h : splitOnDot cs with
  | nil => exact absurd h (splitOnDot_ne_nil cs)
  | cons m ms =>
    rw [splitOnDot_cons_ne hdot h, List.all_cons,
      show labelOk (c :: m) = (isLowerAlnumChar c && tailOk m) from rfl, halnum]
    rfl

theorem joinDots_ne_nil {labels : List (List Char)} (h : labels ≠ [])
    (hne : ∀ l ∈ labels, l ≠ []) : joinDots labels ≠ [] := by
  cases labels with
  | nil => exact absurd rfl h
  | cons L ls =>
    cases ls with
    | nil => exact hne L (List.mem_singleton_self L)
    | cons L2 ls2 =>
      rw [joinDots_cons_of_ne_nil (by simp)]
      simp

theorem joinDots_ascii {labels : List (List Char)}
    (hspec : ∀ l ∈ labels, labelSpec l) :
    ∀ c ∈ joinDots labels, c.toNat < 65536 := by
  intro c hc
  rcases mem_joinDots labels c hc with ⟨l, hl, hcl⟩ | rfl
  · exact (labelChar_props ((hspec l hl).2.1 c hcl)).1
  · decide

theorem isValidK8sName_iff (name : String) :
    isValidK8sName name = true ↔
      (name ≠ "" ∧ name.length ≤ 253 ∧ dnsSubdomainGrammar name) := by
  have hlen_eq : name.length = name.toList.length := rfl
  unfold isValidK8sName
  split_ifs with h
  · constructor
    · intro hf
      exact hf.elim
    · rintro ⟨hne, hlen, labels, hlne, heq, hspec⟩
      have hascii : ∀ c ∈ name.toList, c.toNat < 65536 := by
        rw [heq]
        exact joinDots_ascii hspec
      have hjs : jsLength name.toList = name.toList.length := jsLength_eq_length hascii
      have hnil : name.toList ≠ [] := fun hn => hne ((toList_eq_nil_iff name).mp hn)
      have hpos : 0 < name.toList.length := List.length_pos.mpr hnil
      rw [hlen_eq] at hlen
      exfalso
      rcases h with h | h <;> rw [hjs] at h <;> omega
  · push_neg at h
    obtain ⟨h0, h253⟩ := h
    constructor
    · intro hall
      rw [List.all_eq_true] at hall
      have hspec' : ∀ l ∈ splitOnDot name.toList, labelSpec l :=
        fun l hl => (labelOk_iff l).mp (hall l hl)
      have hascii : ∀ c ∈ name.toList, c.toNat < 65536 := by
        intro c hc
        apply joinDots_ascii hspec'
        rw [joinDots_splitOnDot]
        exact hc
      have hjs := jsLength_eq_length hascii
      refine ⟨fun he => h0 (by rw [he]; rfl), by rw [hlen_eq]; omega,
        splitOnDot name.toList, splitOnDot_ne_nil _, (joinDots_splitOnDot _).symm, hspec'⟩
    · rintro ⟨hne, hlen, labels, hlne, heq, hspec⟩
      have hdot : ∀ l ∈ labels, ∀ c ∈ l, c ≠ '.' :=
        fun l hl c hc => (labelChar_props ((hspec l hl).2.1 c hc)).2
      have hsplit : splitOnDot name.toList = labels := by
        rw [heq]
        exact splitOnDot_joinDots labels hlne hdot
      rw [List.all_eq_true, hsplit]
      exact fun l hl => (labelOk_iff l).mpr (hspec l hl)

/-- C4: `validateSecretName` agrees with `isValidK8sName` on every string,
and `isValidK8sName` accepts exactly the non-empty strings of at most 253
characters that match the DNS-subdomain grammar: dot-separated labels of
lowercase alphanumerics and hyphens, each starting and ending with a
lowercase alphanumeric character. -/
theorem validateSecretName_spec (name : String) :
    (validateSecretName name).valid = isValidK8sName name ∧
    (isValidK8sName name = true ↔
      (name ≠ "" ∧ name.length ≤ 253 ∧ dnsSubdomainGrammar name)) := by
  refine ⟨?_, isValidK8sName_iff name⟩
  unfold validateSecretName
  split_ifs with h1 h2 h3
  · rcases h1 with h1 | h1
    · have hz : jsLength name.toList = 0 := by rw [h1]; rfl
      unfold isValidK8sName
      rw [if_pos (Or.inl hz)]
    · unfold isValidK8sName
      split_ifs with hguard
      · rfl
      · push_neg at hguard
        have hne : name.toList ≠ [] := fun h0 => hguard.1 (by rw [h0]; rfl)
        obtain ⟨c, t, hct⟩ := List.exists_cons_of_ne_nil hne
        have hws : isJsWhitespace c = true := by
          by_contra hcws
          rw [Bool.not_eq_true] at hcws
          rw [hct] at h1
          exact jsTrim_cons_ne_nil hcws h1
        rw [hct, splitOnDot_head_not_alnum t (ws_ne_dot hws) (ws_not_alnum hws)]
  · unfold isValidK8sName
    rw [if_pos (Or.inr h2)]
  · rw [h3]
  · rw [Bool.not_eq_false] at h3
    rw [h3]

/-- `-----BEGIN CERTIFICATE-----` (27 characters). -/
def beginMarker : List Char := "-----BEGIN CERTIFICATE-----".toList

/-- `-----END CERTIFICATE-----` (25 characters). -/
def endMarker : List Char := "-----END CERTIFICATE-----".toList

/-- The regex
`^-----BEGIN CERTIFICATE-----\s+[\s\S]+\s+-----END CERTIFICATE-----\s*$`
applied to an already-trimmed string `t`.  Since a trimmed string never
ends in whitespace the final `\s*` matches nothing, so the regex holds
exactly when `t` starts with the BEGIN marker, ends with the END marker,
is long enough, and the span strictly between the markers (at least 3
characters) starts and ends with a whitespace character — that span is
then `\s+ [\s\S]+ \s+` for some split and conversely. -/
def pemCheck (t : List Char) : Bool :=
  let m := (t.drop 27).take (t.length - 52)
  decide (55 ≤ t.length) && decide (t.take 27 = beginMarker) &&
    decide (t.drop (t.length - 25) = endMarker) &&
    (match m.head?, m.getLast? with
     | some a, some b => isJsWhitespace a && isJsWhitespace b
     | _, _ => false)

/-- `isValidPEM(value)` from `src/lib/validators.ts`: the PEM regex tested
against `value.trim()` (the `!value` guard is subsumed: the empty string
trims to `[]`, which fails the regex). -/
def isValidPEM (value : String) : Bool :=
  pemCheck (jsTrim value.toList)

/-- `validatePEMCertificate(pem)` from `src/lib/validators.ts`. -/
def validatePEMCertificate (pem : String) : ValidationResult :=
  if pem.toList = [] ∨ jsTrim pem.toList = [] then
    ⟨false, some "Certificate is required"⟩
  else if isValidPEM pem = false then
    ⟨false, some
      "Invalid PEM format. Must contain BEGIN CERTIFICATE and END CERTIFICATE markers"⟩
  else
    ⟨true, none⟩

/-- The base64 alphabet `A-Z a-z 0-9 + / =`. -/
def isBase64Char (c : Char) : Bool :=
  (65 ≤ c.toNat && c.toNat ≤ 90) || (97 ≤ c.toNat && c.toNat ≤ 122) ||
  (48 ≤ c.toNat && c.toNat ≤ 57) || c.toNat = 43 || c.toNat = 47 || c.toNat = 61

/-- The claim's predicate, from the spec's words: after trimming, the
string consists exactly of the BEGIN/END CERTIFICATE envelope surrounding
base64 content, separated from the markers by whitespace. -/
def pemEnvelopeBase64 (value : String) : Prop :=
  ∃ w1 c w2 : List Char,
    w1 ≠ [] ∧ (∀ x ∈ w1, isJsWhitespace x = true) ∧
    w2 ≠ [] ∧ (∀ x ∈ w2, isJsWhitespace x = true) ∧
    c ≠ [] ∧ (∀ x ∈ c, isBase64Char x = true) ∧
    jsTrim value.toList = beginMarker ++ w1 ++ c ++ w2 ++ endMarker

/-- The amended predicate: the same envelope, but the content between the
whitespace runs is arbitrary non-empty text (the code never checks it for
base64-ness). -/
def pemEnvelope (value : String) : Prop :=
  ∃ w1 c w2 : List Char,
    w1 ≠ [] ∧ (∀ x ∈ w1, isJsWhitespace x = true) ∧
    w2 ≠ [] ∧ (∀ x ∈ w2, isJsWhitespace x = true) ∧
    c ≠ [] ∧
    jsTrim value.toList = beginMarker ++ w1 ++ c ++ w2 ++ endMarker

theorem getLast?_append_of_ne_nil {l1 l2 : List Char} (h : l2 ≠ []) :
    (l1 ++ l2).getLast? = l2.getLast? := by
  rw [List.getLast?_append]
  cases h2 : l2.getLast? with
  | none => exact absurd (List.getLast?_eq_none_iff.mp h2) h
  | some b => rfl

theorem pemCheck_iff (t : List Char) :
    pemCheck t = true ↔
      ∃ w1 c w2 : List Char,
        w1 ≠ [] ∧ (∀ x ∈ w1, isJsWhitespace x = true) ∧
        w2 ≠ [] ∧ (∀ x ∈ w2, isJsWhitespace x = true) ∧
        c ≠ [] ∧
        t = beginMarker ++ w1 ++ c ++ w2 ++ endMarker := by
  have l27 : beginMarker.length = 27 := by decide
  have l25 : endMarker.length = 25 := by decide
  constructor
  · intro h
    simp only [pemCheck, Bool.and_eq_true, decide_eq_true_eq] at h
    obtain ⟨⟨⟨h55, hb⟩, he⟩, hm⟩ := h
    set m := (t.drop 27).take (t.length - 52) with hmdef
    have hlm : m.length = t.length - 52 := by
      rw [hmdef, List.length_take, List.length_drop]
      omega
    cases hh : m.head? with
    | none =>
      rw [hh] at hm
      exact Bool.noConfusion hm
    | some a =>
      cases hl : m.getLast? with
      | none =>
        rw [hh, hl] at hm
        exact Bool.noConfusion hm
      | some b =>
        rw [hh, hl] at hm
        have hm' : (isJsWhitespace a && isJsWhitespace b) = true := hm
        rw [Bool.and_eq_true] at hm'
        obtain ⟨hwa, hwb⟩ := hm'
        have hmne : m ≠ [] := by
          intro h0
          rw [h0] at hlm
          simp at hlm
          omega
        obtain ⟨a0, m1, hm_eq⟩ := List.exists_cons_of_ne_nil hmne
        have ha0 : a0 = a := by
          rw [hm_eq, List.head?_cons, Option.some_inj] at hh
          exact hh
        have hm1len : m.length = m1.length + 1 := by
          rw [hm_eq]
          simp
        have hm1ne : m1 ≠ [] := by
          intro h0
          rw [h0] at hm1len
          simp at hm1len
          omega
        have hl1 : m1.getLast? = some b := by
          obtain ⟨d, ds, rfl⟩ := List.exists_cons_of_ne_nil hm1ne
          rw [hm_eq, List.getLast?_cons_cons] at hl
          exact hl
        have hb_last : m1.getLast hm1ne = b := by
          rw [List.getLast?_eq_getLast m1 hm1ne, Option.some_inj] at hl1
          exact hl1
        have hm1split : m1.dropLast ++ [b] = m1 := by
          rw [← hb_last]
          exact List.dropLast_append_getLast hm1ne
        have hsplit1 : t = beginMarker ++ t.drop 27 := by
          conv_lhs => rw [← List.take_append_drop 27 t]
          rw [hb]
        have hsplit2 : t.drop 27 = m ++ endMarker := by
          conv_lhs => rw [← List.take_append_drop (t.length - 52) (t.drop 27)]
          rw [← hmdef]
          congr 1
          rw [List.drop_drop, show 27 + (t.length - 52) = t.length - 25 by omega]
          exact he
        refine ⟨[a], m1.dropLast, [b], by simp, ?_, by simp, ?_, ?_, ?_⟩
        · intro x hx
          rw [List.mem_singleton] at hx
          exact hx ▸ hwa
        · intro x hx
          rw [List.mem_singleton] at hx
          exact hx ▸ hwb
        · intro h0
          have hdl := List.length_dropLast m1
          rw [h0] at hdl
          simp at hdl
          omega
        · rw [hsplit1, hsplit2, hm_eq, ← hm1split, ha0]
          simp [List.append_assoc, List.cons_append]
  · rintro ⟨w1, c, w2, hw1ne, hw1ws, hw2ne, hw2ws, hcne, heq⟩
    have heqR : t = beginMarker ++ (w1 ++ (c ++ (w2 ++ endMarker))) := by
      rw [heq]
      simp [List.append_assoc]
    have hw1p : 0 < w1.length := List.length_pos.mpr hw1ne
    have hw2p : 0 < w2.length := List.length_pos.mpr hw2ne
    have hcp : 0 < c.length := List.length_pos.mpr hcne
    have hlen : t.length = 52 + w1.length + c.length + w2.length := by
      have hcl := congrArg List.length heqR
      simp only [List.length_append, l27, l25] at hcl
      omega
    have hdrop27 : t.drop 27 = w1 ++ (c ++ (w2 ++ endMarker)) := by
      rw [heqR]
      exact List.drop_left' l27
    have hmid : (t.drop 27).take (t.length - 52) = w1 ++ (c ++ w2) := by
      rw [hdrop27, show w1 ++ (c ++ (w2 ++ endMarker)) = (w1 ++ (c ++ w2)) ++ endMarker by
        simp [List.append_assoc]]
      apply List.take_left'
      simp only [List.length_append]
      omega
    have hassoc : (beginMarker ++ (w1 ++ (c ++ w2))) ++ endMarker =
        beginMarker ++ (w1 ++ (c ++ (w2 ++ endMarker))) := by
      simp [List.append_assoc]
    have hfront : (beginMarker ++ (w1 ++ (c ++ w2))).length = t.length - 25 := by
      simp only [List.length_append, l27]
      omega
    have hdropEnd : t.drop (t.length - 25) = endMarker := by
      have h1 : ((beginMarker ++ (w1 ++ (c ++ w2))) ++ endMarker).drop (t.length - 25) =
          endMarker := List.drop_left' hfront
      rw [hassoc, ← heqR] at h1
      exact h1
    obtain ⟨x, w1t, rfl⟩ := List.exists_cons_of_ne_nil hw1ne
    have hhead : ((t.drop 27).take (t.length - 52)).head? = some x := by
      rw [hmid, List.cons_append, List.head?_cons]
    have hlastw2 : w2.getLast? = some (w2.getLast hw2ne) :=
      List.getLast?_eq_getLast w2 hw2ne
    have hlast : ((t.drop 27).take (t.length - 52)).getLast? =
        some (w2.getLast hw2ne) := by
      rw [hmid, getLast?_append_of_ne_nil (by simp [hw2ne]),
        getLast?_append_of_ne_nil hw2ne, hlastw2]
    simp only [pemCheck, Bool.and_eq_true, decide_eq_true_eq]
    refine ⟨⟨⟨by omega, by rw [heqR]; exact List.take_left' l27⟩, hdropEnd⟩, ?_⟩
    rw [hhead, hlast]
    show (isJsWhitespace x && isJsWhitespace (w2.getLast hw2ne)) = true
    rw [Bool.and_eq_true]
    exact ⟨hw1ws x (List.mem_cons_self x w1t), hw2ws _ (List.getLast_mem hw2ne)⟩

/-- A syntactically well-enveloped PEM whose inner content `!!!` is not
base64. -/
def badPEM : String := "-----BEGIN CERTIFICATE-----\n!!!\n-----END CERTIFICATE-----"

/-- Counterexample to C6 as stated: `isValidPEM` accepts `badPEM`
although no decomposition of it has base64 content between the markers —
the regex constrains the envelope and the whitespace separators but never
the content. -/
theorem isValidPEM_base64_counterexample :
    isValidPEM badPEM = true ∧ ¬ pemEnvelopeBase64 badPEM := by
  constructor
  · decide
  · intro h
    obtain ⟨w1, c, w2, hw1ne, hw1ws, hw2ne, hw2ws, hcne, hc64, heq⟩ := h
    have hconc : jsTrim badPEM.toList =
        beginMarker ++ ('\n' :: '!' :: '!' :: '!' :: '\n' :: endMarker) := by decide
    have heqR : beginMarker ++ ('\n' :: '!' :: '!' :: '!' :: '\n' :: endMarker) =
        beginMarker ++ (w1 ++ (c ++ (w2 ++ endMarker))) := by
      rw [← hconc, heq]
      simp [List.append_assoc]
    have htail : '\n' :: '!' :: '!' :: '!' :: '\n' :: endMarker =
        w1 ++ (c ++ (w2 ++ endMarker)) :=
      List.append_cancel_left heqR
    obtain ⟨a, w1t, rfl⟩ := List.exists_cons_of_ne_nil hw1ne
    rw [List.cons_append] at htail
    injection htail with ha htail2
    cases w1t with
    | cons b w1t2 =>
      rw [List.cons_append] at htail2
      injection htail2 with hb _
      have hwb : isJsWhitespace b = true := hw1ws b (by simp)
      rw [← hb] at hwb
      exact absurd hwb (by decide)
    | nil =>
      rw [List.nil_append] at htail2
      obtain ⟨y, ct, rfl⟩ := List.exists_cons_of_ne_nil hcne
      rw [List.cons_append] at htail2
      injection htail2 with hy _
      have hby : isBase64Char y = true := hc64 y (by simp)
      rw [← hy] at hby
      exact absurd hby (by decide)

/-- C6 as amended: `validatePEMCertificate` agrees with `isValidPEM` on
every string, and `isValidPEM` accepts a string iff, after trimming, it
consists exactly of the `-----BEGIN CERTIFICATE-----` /
`-----END CERTIFICATE-----` envelope surrounding non-empty content
separated from each marker by whitespace; the content between the
whitespace runs is arbitrary — it is not checked to be base64. -/
theorem validatePEMCertificate_spec (value : String) :
    ((validatePEMCertificate value).valid = isValidPEM value) ∧
    (isValidPEM value = true ↔ pemEnvelope value) := by
  constructor
  · unfold validatePEMCertificate
    split_ifs with h1 h2
    · have htr : jsTrim value.toList = [] := by
        rcases h1 with h1 | h1
        · rw [h1]
          rfl
        · exact h1
      unfold isValidPEM
      rw [htr]
      decide
    · rw [h2]
    · rw [Bool.not_eq_false] at h2
      rw [h2]
  · unfold isValidPEM pemEnvelope
    exact pemCheck_iff (jsTrim value.toList)

end SealedSecrets
